import Mathlib

/-!
Shallow embedding of `github.com/brickingsoft/bytebuffers` (buffer.go, pool.go).

Modelling conventions:
* Go `int` is 64-bit here; cursors and sizes are `Nat` (all values in the
  source are non-negative), with `maxInt = 2^63 - 1` made explicit where the
  source compares against it.  At the single place the source subtracts
  (`maxInt - buf.c - n` in `grow`), the Go computation cannot overflow
  (`0 ≤ c, n ≤ maxInt` gives `-maxInt ≤ maxInt - c - n ≤ maxInt`), and the
  truncated `Nat` subtraction agrees with the Go value of the comparison
  whenever `c > 0`, which holds on the branch where the comparison occurs.
* Bytes are modelled as `Nat`; no byte arithmetic occurs in the source.
* Go slices become `List Nat`; `copy` becomes `goCopy`/`copyAt` below
  (memmove semantics: the source region is read as a snapshot).
* Readers (`io.Reader`) are modelled as the list of byte chunks successive
  `Read` calls deliver, clamped to the destination length as the io.Reader
  contract requires; end of the list is `io.EOF`.  Writers (`io.Writer`)
  are the list of byte counts successive `Write` calls accept, clamped to
  the source length; end of the list is a sink error (the source loops
  forever on a sink that accepts 0 bytes without error, so only
  error-terminated sink behaviours are modelled).
* `Return` panics on negative `used`; its argument is therefore `Nat`.
-/

namespace Bytebuffers

/-- Go `const maxInt = int(^uint(0) >> 1)` on a 64-bit platform. -/
def maxInt : Nat := 2 ^ 63 - 1

/-- pool.go: `minHint = 1 << minBitSize` with `minBitSize = 6`. -/
def minHint : Nat := 64

/-- pool.go: `steps = 20`. -/
def steps : Nat := 20

/-- pool.go: `maxSize = 1 << (minBitSize + steps - 1)`. -/
def poolMaxSize : Nat := 1 <<< 25

/-- pool.go: `calibrateCallsThreshold = 42000`. -/
def calibrateCallsThreshold : Nat := 42000

/-- buffer.go `adjustBufferSize`: the source computes
`int(math.Ceil(float64(size)/float64(base)) * float64(base))`.  For
`1 ≤ base` and `size < 2^53` the float64 computation is exact and equals
the ceiling division below, which is how it is embedded. -/
def adjustBufferSize (size : Nat) (base : Nat) : Nat :=
  ((size + base - 1) / base) * base

/-- Go `copy(dst, src)`: overwrites the first `min |dst| |src|` entries of
`dst` with those of `src`, leaving the rest of `dst`; the length of `dst`
is unchanged. -/
def goCopy (dst src : List Nat) : List Nat :=
  src.take dst.length ++ dst.drop (min dst.length src.length)

/-- Go `copy(b[i:], src)` performed on the enclosing slice `b`. -/
def copyAt (b : List Nat) (i : Nat) (src : List Nat) : List Nat :=
  b.take i ++ goCopy (b.drop i) src

/-- Go `b[i:j]`. -/
def slice (b : List Nat) (i j : Nat) : List Nat :=
  (b.drop i).take (j - i)

/-- The errors of buffer.go (`ErrTooLarge`, `ErrWriteBeforeAllocated`,
`ErrAllocateZero`), `io.EOF`, and an opaque error propagated verbatim from
an external source/sink. -/
inductive GoErr where
  | tooLarge
  | writeBeforeAllocated
  | allocateZero
  | eof
  | streamErr
  deriving DecidableEq, Repr

/-- buffer.go `bufferFields` + backing store `b`.  `c` is the capacity,
`r`/`w`/`a` the read/write/alloc cursors, `h` the growth hint. -/
structure buffer where
  h : Nat
  c : Nat
  r : Nat
  w : Nat
  a : Nat
  b : List Nat
  deriving DecidableEq, Repr

/-- buffer.go `NewBufferWithCapacityHint`: `hint <= 0` falls back to
`minHint`; no backing store is allocated. -/
def NewBufferWithCapacityHint (hint : Int) : buffer :=
  { h := if hint ≤ 0 then minHint else hint.toNat
    c := 0, r := 0, w := 0, a := 0, b := [] }

/-- buffer.go `NewBuffer`. -/
def NewBuffer : buffer := NewBufferWithCapacityHint (Int.ofNat minHint)

namespace buffer

/-- buffer.go `Len`. -/
def Len (s : buffer) : Nat := s.w - s.r

/-- buffer.go `Capacity`. -/
def Capacity (s : buffer) : Nat := s.c

/-- buffer.go `CapacityHint`. -/
def CapacityHint (s : buffer) : Nat := s.h

/-- buffer.go `Borrowing`: `buf.a != buf.w`. -/
def Borrowing (s : buffer) : Bool := s.a != s.w

/-- buffer.go `shrink` (the returned Bool is discarded by every caller). -/
def shrink (s : buffer) : buffer :=
  if s.r = s.w ∧ s.a = s.w then { s with r := 0, w := 0, a := 0 } else s

/-- The unread region `b[r:w]`. -/
def unread (s : buffer) : List Nat := slice s.b s.r s.w

/-- buffer.go `grow`.  The source tests `buf.b == nil` for the
never-allocated state; in every reachable state that is equivalent to
`c = 0` (`c` counts the backing store's length and the init branch is the
only transition out of `c = 0`), which is how it is embedded. -/
def grow (s : buffer) (n : Nat) : Option GoErr × buffer :=
  if n < 1 then (none, s)
  else if s.Borrowing then (some .writeBeforeAllocated, s)
  else if s.c = 0 then
    -- init buffer
    let adjustedSize := adjustBufferSize n s.h
    (none, { s with r := 0, w := 0, a := 0, c := s.c + adjustedSize,
                    b := List.replicate adjustedSize 0 })
  else
    let s := s.shrink
    let bLen := s.Len
    let bCap := s.Capacity
    let remains := bCap - bLen
    if n ≤ remains then
      -- n <= remains then try to left shift
      if s.r = 0 then (none, s)
      else
        -- has data then left shift
        (none, { s with r := 0, w := bLen, a := bLen,
                        b := goCopy s.b (slice s.b s.r s.w) })
    else
      let n := n - remains
      if s.c > maxInt - s.c - n then (some .tooLarge, s)
      else
        let adjustedSize := adjustBufferSize n s.h
        let nb := List.replicate (adjustedSize + bCap) 0
        let nb := if 0 < bLen then goCopy nb (slice s.b s.r s.w) else nb
        (none, { s with r := 0, w := bLen, a := bLen,
                        c := s.c + adjustedSize, b := nb })

/-- buffer.go `Write` (also the effect of `WriteString`, which forwards the
string's bytes to `Write`).  Returns the count written and the error. -/
def Write (s : buffer) (p : List Nat) : (Nat × Option GoErr) × buffer :=
  if s.Borrowing then ((0, some .writeBeforeAllocated), s)
  else if p.length = 0 then ((0, none), s)
  else
    match (if s.c - s.w < p.length then s.grow p.length else (none, s)) with
    | (some e, s') => ((0, some e), s')
    | (none, s') =>
      let n := min (s'.b.length - s'.w) p.length
      ((n, none), { s' with b := copyAt s'.b s'.w p, w := s'.w + n, a := s'.w + n })

/-- buffer.go `WriteByte`. -/
def WriteByte (s : buffer) (x : Nat) : Option GoErr × buffer :=
  if s.Borrowing then (some .writeBeforeAllocated, s)
  else
    match (if s.c - s.w < 1 then s.grow 1 else (none, s)) with
    | (some e, s') => (some e, s')
    | (none, s') =>
      (none, { s' with b := s'.b.set s'.w x, w := s'.w + 1, a := s'.w + 1 })

/-- buffer.go `Set` (also the effect of `SetString`): rewrite the unread
region with `p`. -/
def Set (s : buffer) (p : List Nat) : Option GoErr × buffer :=
  if s.Borrowing then (some .writeBeforeAllocated, s)
  else if p.length = 0 then
    if s.c = 0 then (none, s) else (none, { s with w := s.r, a := s.r })
  else
    match (if s.c - s.w < p.length then s.grow p.length else (none, s)) with
    | (some e, s') => (some e, s')
    | (none, s') =>
      let n := min (s'.b.length - s'.r) p.length
      (none, { s' with b := copyAt s'.b s'.r p, w := s'.r + n, a := s'.r + n })

/-- buffer.go `Next`: copy out up to `n` unread bytes. -/
def Next (s : buffer) (n : Nat) : (List Nat × Option GoErr) × buffer :=
  if n < 1 then (([], none), s)
  else if s.Len = 0 then (([], some .eof), s)
  else
    let n := min n s.Len
    let p := (s.unread).take n
    ((p, none), { s with r := s.r + n }.shrink)

/-- buffer.go `Read` into a destination of length `dLen`; returns the bytes
placed there and the count. -/
def Read (s : buffer) (dLen : Nat) : (List Nat × Nat × Option GoErr) × buffer :=
  if dLen = 0 then (([], 0, none), s)
  else if s.Len = 0 then (([], 0, some .eof), s)
  else
    let n := min dLen s.Len
    (((s.unread).take n, n, none), { s with r := s.r + n }.shrink)

/-- buffer.go `ReadByte`. -/
def ReadByte (s : buffer) : (Nat × Option GoErr) × buffer :=
  if s.Len = 0 then ((0, some .eof), s)
  else ((s.b.getD s.r 0, none), { s with r := s.r + 1 }.shrink)

/-- Go `bytes.IndexByte`: index of the first occurrence, or −1. -/
def indexByte (l : List Nat) (delim : Nat) : Int :=
  match l.findIdx? (· = delim) with
  | some i => Int.ofNat i
  | none => -1

/-- buffer.go `ReadBytes`. -/
def ReadBytes (s : buffer) (delim : Nat) : (List Nat × Option GoErr) × buffer :=
  if s.Len = 0 then (([], some .eof), s)
  else
    let i := indexByte (slice s.b s.r s.w) delim
    if i = -1 then
      ((s.unread, none), { s with r := s.r + s.Len }.shrink)
    else
      let sz := i.toNat + 1
      (((s.unread).take sz, none), { s with r := s.r + sz }.shrink)

/-- buffer.go `Index`. -/
def Index (s : buffer) (delim : Nat) : Int :=
  if s.Len = 0 then 0 else indexByte (slice s.b s.r s.w) delim

/-- buffer.go `Discard`. -/
def Discard (s : buffer) (n : Nat) : buffer :=
  if n < 1 then s
  else if s.Len = 0 then s
  else
    let n := min n s.Len
    ({ s with r := s.r + n }).shrink

/-- buffer.go `Peek`. -/
def Peek (s : buffer) (n : Nat) : List Nat :=
  if n < 1 ∨ s.Len = 0 then []
  else if n < s.Len then slice s.b s.r (s.r + n)
  else slice s.b s.r s.w

/-- buffer.go `CloneBytes`. -/
def CloneBytes (s : buffer) : List Nat := s.Peek s.Len

/-- buffer.go `Borrow`: returns the borrowed view and the error. -/
def Borrow (s : buffer) (size : Nat) : (List Nat × Option GoErr) × buffer :=
  if s.Borrowing then (([], some .writeBeforeAllocated), s)
  else if size < 1 then (([], some .allocateZero), s)
  else
    match (if s.c - s.w < size then s.grow size else (none, s)) with
    | (some e, s') => (([], some e), s')
    | (none, s') =>
      ((slice s'.b s'.w (s'.w + size), none), { s' with a := s'.a + size })

/-- buffer.go `Return` (negative `used` panics in the source, hence `Nat`).
Note the source performs no check of `used` against the borrowed size. -/
def Return (s : buffer) (used : Nat) : buffer :=
  if s.a = s.w then s
  else if used = 0 then { s with a := s.w }
  else { s with w := s.w + used, a := s.w + used }

/-- buffer.go `Reset`. -/
def Reset (s : buffer) : Bool × buffer :=
  if s.Borrowing then (false, s)
  else (true, { s with r := 0, w := 0, a := 0 })

/-- The loop of buffer.go `ReadFromWithHint`: each element of `chunks` is
what one `Read` call on the source delivers (clamped to the free space, as
the io.Reader contract requires); the end of the list is the `io.EOF`
return, before which the source still checks `w == c` and grows. -/
def readFromLoop (s : buffer) (hint : Nat) :
    List (List Nat) → Nat → (Nat × Option GoErr) × buffer
  | [], n =>
    match (if s.w = s.c then s.grow hint else (none, s)) with
    | (some e, s') => ((n, some e), s')
    | (none, s') => ((n, none), s')
  | ch :: rest, n =>
    match (if s.w = s.c then s.grow hint else (none, s)) with
    | (some e, s') => ((n, some e), s')
    | (none, s') =>
      let rn := min ch.length (s'.c - s'.w)
      let s'' := { s' with b := copyAt s'.b s'.w (ch.take rn),
                           w := s'.w + rn, a := s'.w + rn }
      readFromLoop s'' hint rest (n + rn)

/-- The hint normalisation at the head of buffer.go `ReadFromWithHint`
(lines 364–370): clamp below at 1; when the result exceeds the configured
hint `h`, replace it by `1 << bits.Len(uint(hint)-1)`, i.e. the least
power of two that is at least `hint` (`bits.Len m = Nat.size m`). -/
def hintChunkSize (h : Nat) (hint : Int) : Nat :=
  let hint' := if hint < 1 then 1 else hint.toNat
  if hint' > h then 2 ^ Nat.size (hint' - 1) else hint'

/-- buffer.go `ReadFromWithHint` over a chunk-list source. -/
def ReadFromWithHint (s : buffer) (chunks : List (List Nat)) (hint : Int) :
    (Nat × Option GoErr) × buffer :=
  if s.Borrowing then ((0, some .writeBeforeAllocated), s)
  else readFromLoop s (hintChunkSize s.h hint) chunks 0

/-- buffer.go `ReadFrom` = `ReadFromWithHint` with hint 1. -/
def ReadFrom (s : buffer) (chunks : List (List Nat)) :
    (Nat × Option GoErr) × buffer :=
  s.ReadFromWithHint chunks 1

/-- The loop of buffer.go `ReadFromLimited`: reads into `b[w:w+n]` until
`n` bytes arrive or the source ends. -/
def readFromLimitedLoop (s : buffer) :
    List (List Nat) → Nat → Nat → (Nat × Option GoErr) × buffer
  | _, 0, nn => ((nn, none), s)
  | [], _, nn => ((nn, none), s)
  | ch :: rest, n, nn =>
    let rn := min ch.length n
    let s' := { s with b := copyAt s.b s.w (ch.take rn),
                       w := s.w + rn, a := s.w + rn }
    readFromLimitedLoop s' rest (n - rn) (nn + rn)

/-- buffer.go `ReadFromLimited`. -/
def ReadFromLimited (s : buffer) (chunks : List (List Nat)) (n : Nat) :
    (Nat × Option GoErr) × buffer :=
  if s.Borrowing then ((0, some .writeBeforeAllocated), s)
  else if n < 1 then ((0, none), s)
  else
    match s.grow n with
    | (some e, s') => ((0, some e), s')
    | (none, s') => readFromLimitedLoop s' chunks n 0

/-- The loop of buffer.go `WriteTo`: each element of `accepts` is the byte
count one sink `Write` call accepts (clamped to what was offered); an
exhausted list stands for a sink error, which the source surfaces. -/
def writeToLoop (s : buffer) : List Nat → Nat → (Nat × Option GoErr) × buffer
  | accepts, n =>
    if s.r < s.w then
      match accepts with
      | [] => ((n, some .streamErr), s)
      | acc :: rest =>
        let wn := min acc (s.w - s.r)
        writeToLoop { s with r := s.r + wn } rest (n + wn)
    else ((n, none), s)
  termination_by accepts => accepts.length

/-- buffer.go `WriteTo`. -/
def WriteTo (s : buffer) (accepts : List Nat) : (Nat × Option GoErr) × buffer :=
  s.writeToLoop accepts 0

/-- The loop of buffer.go `WriteToLimited`. -/
def writeToLimitedLoop (s : buffer) :
    List Nat → Nat → Nat → (Nat × Option GoErr) × buffer
  | accepts, n, nn =>
    if s.r < s.w ∧ 0 < n then
      match accepts with
      | [] => ((nn, some .streamErr), s)
      | acc :: rest =>
        let wn := min acc (min n (s.w - s.r))
        writeToLimitedLoop { s with r := s.r + wn } rest (n - wn) (nn + wn)
    else ((nn, none), s)
  termination_by accepts => accepts.length

/-- buffer.go `WriteToLimited` (`n` is first clamped to `Len`). -/
def WriteToLimited (s : buffer) (accepts : List Nat) (n : Nat) :
    (Nat × Option GoErr) × buffer :=
  s.writeToLimitedLoop accepts (min n s.Len) 0

end buffer

/-- One public mutating Buffer operation.  `Peek`, `Index`, `CloneBytes`,
`Len`, `Capacity`, `CapacityHint` and `Borrowing` do not change the state;
`WriteString`/`SetString` act through `Write`/`Set` and `ReadFrom` through
`ReadFromWithHint`, so they are covered by those constructors. -/
inductive Op where
  | write (p : List Nat)
  | writeByte (x : Nat)
  | set (p : List Nat)
  | next (n : Nat)
  | read (dLen : Nat)
  | readByte
  | readBytes (delim : Nat)
  | discard (n : Nat)
  | borrow (size : Nat)
  | ret (used : Nat)
  | reset
  | readFromWithHint (chunks : List (List Nat)) (hint : Int)
  | readFromLimited (chunks : List (List Nat)) (n : Nat)
  | writeTo (accepts : List Nat)
  | writeToLimited (accepts : List Nat) (n : Nat)
  deriving DecidableEq, Repr

/-- The state after one public operation (returned values dropped). -/
def applyOp (s : buffer) : Op → buffer
  | .write p => (s.Write p).2
  | .writeByte x => (s.WriteByte x).2
  | .set p => (s.Set p).2
  | .next n => (s.Next n).2
  | .read dLen => (s.Read dLen).2
  | .readByte => s.ReadByte.2
  | .readBytes delim => (s.ReadBytes delim).2
  | .discard n => s.Discard n
  | .borrow size => (s.Borrow size).2
  | .ret used => s.Return used
  | .reset => s.Reset.2
  | .readFromWithHint chunks hint => (s.ReadFromWithHint chunks hint).2
  | .readFromLimited chunks n => (s.ReadFromLimited chunks n).2
  | .writeTo accepts => (s.WriteTo accepts).2
  | .writeToLimited accepts n => (s.WriteToLimited accepts n).2

/-- The state after a sequence of public operations. -/
def execOps (s : buffer) : List Op → buffer
  | [] => s
  | op :: rest => execOps (applyOp s op) rest

/-- The cursor invariant of the data model, together with the facts that
`c` is the backing store's length and the growth hint is positive (both
hold by construction). -/
def Inv (s : buffer) : Prop :=
  s.r ≤ s.w ∧ s.w ≤ s.a ∧ s.a ≤ s.c ∧ s.c = s.b.length ∧ 1 ≤ s.h

instance (s : buffer) : Decidable (Inv s) := by
  unfold Inv; infer_instance

/-- `Return used` respects the outstanding borrow: `used` does not exceed
`a − w` (the caller contract stated by the spec). -/
def OpOK (s : buffer) : Op → Prop
  | .ret used => used ≤ s.a - s.w
  | _ => True

/-- A trace whose `Return` calls all respect the outstanding borrow. -/
def TraceOK (s : buffer) : List Op → Prop
  | [] => True
  | op :: rest => OpOK s op ∧ TraceOK (applyOp s op) rest

instance (s : buffer) (op : Op) : Decidable (OpOK s op) := by
  cases op <;> simp only [OpOK] <;> infer_instance

instance (s : buffer) (ops : List Op) : Decidable (TraceOK s ops) := by
  induction ops generalizing s with
  | nil => exact .isTrue trivial
  | cons op rest ih => exact @instDecidableAnd _ _ _ (ih _)

namespace buffer

theorem goCopy_length (dst src : List Nat) : (goCopy dst src).length = dst.length := by
  simp [goCopy]

theorem copyAt_length (b : List Nat) (i : Nat) (src : List Nat)
    (h : i ≤ b.length) : (copyAt b i src).length = b.length := by
  simp [copyAt, goCopy_length]; omega

theorem goCopy_eq_append (dst src : List Nat) (h : src.length ≤ dst.length) :
    goCopy dst src = src ++ dst.drop src.length := by
  simp [goCopy, List.take_of_length_le h, Nat.min_eq_right h]

theorem shrink_inv {s : buffer} (h : Inv s) : Inv s.shrink := by
  unfold shrink
  split
  · exact ⟨Nat.le_refl 0, Nat.le_refl 0, Nat.zero_le _, h.2.2.2.1, h.2.2.2.2⟩
  · exact h

theorem shrink_len (s : buffer) : s.shrink.Len = s.Len := by
  unfold shrink
  split
  · rename_i hs
    simp [Len, hs.1]
  · rfl

theorem shrink_c (s : buffer) : s.shrink.c = s.c := by
  unfold shrink; split <;> rfl

theorem shrink_b (s : buffer) : s.shrink.b = s.b := by
  unfold shrink; split <;> rfl

theorem shrink_h (s : buffer) : s.shrink.h = s.h := by
  unfold shrink; split <;> rfl

theorem shrink_unread (s : buffer) : s.shrink.unread = s.unread := by
  unfold shrink
  split
  · rename_i hs
    simp [unread, slice, hs.1, Len]
  · rfl

theorem adjustBufferSize_ge (n h : Nat) (hh : 1 ≤ h) :
    n ≤ adjustBufferSize n h := by
  unfold adjustBufferSize
  have := Nat.div_mul_le_self (n + h - 1) h
  have h2 : n + h - 1 < (n + h - 1) / h * h + h := Nat.lt_div_mul_add hh
  omega

theorem adjustBufferSize_dvd (n h : Nat) : h ∣ adjustBufferSize n h :=
  Dvd.intro_left _ rfl

theorem slice_length (b : List Nat) (i j : Nat) :
    (slice b i j).length = min (j - i) (b.length - i) := by
  simp [slice]

theorem goCopy_slice_take {b : List Nat} {r w : Nat} (hr : r ≤ w) (hw : w ≤ b.length) :
    (goCopy b (slice b r w)).take (w - r) = slice b r w := by
  have hlen : (slice b r w).length = w - r := by
    rw [slice_length]; omega
  have hle : (slice b r w).length ≤ b.length := by omega
  rw [goCopy_eq_append _ _ hle, ← hlen, List.take_left]

theorem goCopy_replicate_take {src : List Nat} {m : Nat} (h : src.length ≤ m) :
    (goCopy (List.replicate m (0 : Nat)) src).take src.length = src := by
  have hle : src.length ≤ (List.replicate m (0 : Nat)).length := by simpa using h
  rw [goCopy_eq_append _ _ hle, List.take_left]

theorem unread_length {s : buffer} (h : Inv s) : s.unread.length = s.Len := by
  obtain ⟨h1, h2, h3, h4, h5⟩ := h
  rw [unread, slice_length, Len]
  omega

theorem slice_goCopy_replicate {b : List Nat} {r w M : Nat} (hr : r ≤ w)
    (hw : w ≤ b.length) (hM : w - r ≤ M) :
    slice (goCopy (List.replicate M (0 : Nat)) (slice b r w)) 0 (w - r) = slice b r w := by
  have hsl : (slice b r w).length = w - r := by
    rw [slice_length]; omega
  have hle : (slice b r w).length ≤ (List.replicate M (0 : Nat)).length := by
    simp [hsl]; omega
  show ((goCopy (List.replicate M (0 : Nat)) (slice b r w)).drop 0).take (w - r - 0) = _
  rw [List.drop_zero, Nat.sub_zero, goCopy_eq_append _ _ hle, List.take_left' hsl]

/-- Behavioural summary of `grow`: it preserves the invariant, the unread
bytes, the logical length and the hint; capacity never shrinks; and on
success at least `n` bytes are free beyond the write cursor. -/
theorem grow_spec {s : buffer} (n : Nat) (hInv : Inv s) :
    Inv (s.grow n).2 ∧ (s.grow n).2.unread = s.unread ∧
    (s.grow n).2.Len = s.Len ∧ (s.grow n).2.h = s.h ∧
    s.c ≤ (s.grow n).2.c ∧
    ((s.grow n).1 = none → n ≤ (s.grow n).2.c - (s.grow n).2.w) := by
  obtain ⟨h1, h2, h3, h4, h5⟩ := hInv
  by_cases hn : n < 1
  · simp only [grow, if_pos hn]
    exact ⟨⟨h1, h2, h3, h4, h5⟩, by simp, by simp, by simp, Nat.le_refl _, by omega⟩
  by_cases hb : s.Borrowing = true
  · simp only [grow, if_neg hn, if_pos hb]
    exact ⟨⟨h1, h2, h3, h4, h5⟩, by simp, by simp, by simp, Nat.le_refl _, by simp⟩
  by_cases hc : s.c = 0
  · have hge := adjustBufferSize_ge n s.h h5
    have hb0 : s.b = [] := by
      have h4' := h4
      rw [hc] at h4'
      exact List.eq_nil_of_length_eq_zero h4'.symm
    simp only [grow, if_neg hn, if_neg hb, if_pos hc]
    refine ⟨⟨?_, ?_, ?_, ?_, ?_⟩, ?_, ?_, ?_, ?_, ?_⟩ <;>
      simp [hc, hb0, unread, slice, Len, h5] <;> omega
  have ha : s.a = s.w := by
    simpa [Borrowing] using hb
  by_cases hsh : s.r = s.w ∧ s.a = s.w
  · simp only [grow, if_neg hn, if_neg hb, if_neg hc, shrink, if_pos hsh, Len,
      Capacity, Nat.sub_zero, if_true]
    split_ifs with hrem htoo hpos0
    · refine ⟨⟨?_, ?_, ?_, ?_, ?_⟩, ?_, ?_, ?_, ?_, ?_⟩ <;>
        simp [unread, slice, Len, h5, h4, hsh.1] <;> omega
    · refine ⟨⟨?_, ?_, ?_, ?_, ?_⟩, ?_, ?_, ?_, ?_, ?_⟩ <;>
        simp [unread, slice, Len, h5, h4, hsh.1] <;> omega
    · exact absurd hpos0 (by simp)
    · have hge := adjustBufferSize_ge (n - s.c) s.h h5
      refine ⟨⟨?_, ?_, ?_, ?_, ?_⟩, ?_, ?_, ?_, ?_, ?_⟩
      · simp
      · simp
      · simp
      · simp
        omega
      · simpa using h5
      · simp [unread, slice, hsh.1]
      · simp [Len, hsh.1]
      · simp
      · simp
      · intro _
        simp
        omega
  · have hrw : ¬(s.r = s.w) := fun hcon => hsh ⟨hcon, ha⟩
    have hlen : 0 < s.Len := by
      simp only [Len]; omega
    have hwl : s.w ≤ s.b.length := by omega
    have hsl : (slice s.b s.r s.w).length = s.w - s.r := by
      rw [slice_length]; omega
    simp only [grow, if_neg hn, if_neg hb, if_neg hc, shrink, if_neg hsh]
    split_ifs with hrem hr htoo
    · exact ⟨⟨h1, h2, h3, h4, h5⟩, by simp, by simp, by simp, Nat.le_refl _, by
        intro _
        simp only [Capacity, Len] at hrem ⊢
        omega⟩
    · -- compact / left shift
      have hcut : (goCopy s.b (slice s.b s.r s.w)).take (s.w - s.r) = slice s.b s.r s.w :=
        goCopy_slice_take h1 hwl
      refine ⟨⟨?_, ?_, ?_, ?_, ?_⟩, ?_, ?_, ?_, ?_, ?_⟩
      · simp
      · simp [Len]
      · simp [Len, Capacity] at hrem ⊢
        omega
      · simp [Len, goCopy_length]
        omega
      · simpa using h5
      · simp only [unread, slice, Len]
        simpa using hcut
      · simp [Len]
      · simp
      · simp
      · intro _
        simp only [Capacity, Len] at hrem ⊢
        omega
    · exact ⟨⟨h1, h2, h3, h4, h5⟩, by simp, by simp, by simp, Nat.le_refl _, by simp⟩
    · -- realloc with data copy
      have hge := adjustBufferSize_ge (n - (s.c - (s.w - s.r))) s.h h5
      simp only [Capacity, Len] at hrem htoo
      refine ⟨⟨?_, ?_, ?_, ?_, ?_⟩, ?_, ?_, ?_, ?_, ?_⟩
      · simp
      · simp [Len]
      · simp only [Len, Capacity]
        simp
        omega
      · simp only [Len, Capacity]
        simp [goCopy_length]
        omega
      · simpa using h5
      · simp only [unread, Len, Capacity, Nat.sub_zero]
        exact slice_goCopy_replicate h1 hwl (by omega)
      · simp [Len]
      · simp
      · simp
      · intro _
        simp only [Capacity, Len]
        omega

theorem grow_inv {s : buffer} (n : Nat) (h : Inv s) : Inv (s.grow n).2 :=
  (grow_spec n h).1

theorem grow_unread {s : buffer} (n : Nat) (h : Inv s) :
    (s.grow n).2.unread = s.unread :=
  (grow_spec n h).2.1

theorem grow_len {s : buffer} (n : Nat) (h : Inv s) : (s.grow n).2.Len = s.Len :=
  (grow_spec n h).2.2.1

theorem grow_h {s : buffer} (n : Nat) (h : Inv s) : (s.grow n).2.h = s.h :=
  (grow_spec n h).2.2.2.1

theorem grow_c_le {s : buffer} (n : Nat) (h : Inv s) : s.c ≤ (s.grow n).2.c :=
  (grow_spec n h).2.2.2.2.1

theorem grow_space {s : buffer} {n : Nat} (h : Inv s) (hok : (s.grow n).1 = none) :
    n ≤ (s.grow n).2.c - (s.grow n).2.w :=
  (grow_spec n h).2.2.2.2.2 hok

/-- The `if shortOnSpace then grow else no-op` prelude shared by `Write`,
`WriteByte`, `Set` and `Borrow` keeps the invariant ... -/
theorem iteGrow_inv {s : buffer} (P : Prop) [Decidable P] (n : Nat) (h : Inv s) :
    Inv (if P then s.grow n else (none, s)).2 := by
  split
  · exact grow_inv n h
  · exact h

/-- ... and when it returns no error, `n` bytes fit beyond the write
cursor (for the prelude's actual test `c - w < n`). -/
theorem iteGrow_space {s : buffer} {n : Nat} (h : Inv s)
    (hok : (if s.c - s.w < n then s.grow n else (none, s)).1 = none) :
    n ≤ (if s.c - s.w < n then s.grow n else (none, s)).2.c -
      (if s.c - s.w < n then s.grow n else (none, s)).2.w := by
  by_cases hP : s.c - s.w < n
  · simp only [if_pos hP] at hok ⊢
    exact grow_space h hok
  · simp only [if_neg hP] at hok ⊢
    omega

theorem grow_aw {s : buffer} (n : Nat) (ha : s.a = s.w) :
    (s.grow n).2.a = (s.grow n).2.w := by
  rcases hg : s.grow n with ⟨e, t⟩
  show t.a = t.w
  unfold grow shrink at hg
  dsimp only at hg
  repeat' split at hg
  all_goals cases hg
  all_goals simp_all [Borrowing]

theorem grow_notBorrowing {s : buffer} (n : Nat) (hb : s.Borrowing ≠ true) :
    (s.grow n).2.Borrowing ≠ true := by
  have ha : s.a = s.w := by
    simpa [Borrowing] using hb
  simpa [Borrowing] using grow_aw n ha

theorem iteGrow_notBorrowing {s : buffer} (P : Prop) [Decidable P] (n : Nat)
    (hb : s.Borrowing ≠ true) :
    (if P then s.grow n else (none, s)).2.Borrowing ≠ true := by
  split
  · exact grow_notBorrowing n hb
  · exact hb

/-- A committed write at the write cursor (the tail of `Write`, of `Set`
after the rewind, and of the read-from loops) keeps the invariant. -/
theorem writeAt_inv {s : buffer} (h : Inv s) {i k : Nat} (hr : s.r ≤ i)
    (hi : i ≤ s.w) (hik : i + k ≤ s.c) (p : List Nat) :
    Inv { s with b := copyAt s.b i p, w := i + k, a := i + k } := by
  obtain ⟨h1, h2, h3, h4, h5⟩ := h
  have hlen : (copyAt s.b i p).length = s.b.length :=
    copyAt_length s.b i p (by omega)
  refine ⟨by simp; omega, by simp, by simp; omega, ?_, h5⟩
  simp [hlen]
  omega

theorem Write_inv {s : buffer} (p : List Nat) (h : Inv s) : Inv (s.Write p).2 := by
  unfold Write
  split
  · exact h
  split
  · exact h
  rcases hg : (if s.c - s.w < p.length then s.grow p.length else (none, s)) with ⟨e, s'⟩
  have hs' : Inv s' := by
    have := iteGrow_inv (s.c - s.w < p.length) p.length h
    rw [hg] at this
    exact this
  cases e with
  | some e => simpa [hg] using hs'
  | none =>
    simp only [hg]
    obtain ⟨h1, h2, h3, h4, h5⟩ := hs'
    exact writeAt_inv ⟨h1, h2, h3, h4, h5⟩ h1 (Nat.le_refl _) (by omega) p

theorem WriteByte_inv {s : buffer} (x : Nat) (h : Inv s) : Inv (s.WriteByte x).2 := by
  unfold WriteByte
  split
  · exact h
  rcases hg : (if s.c - s.w < 1 then s.grow 1 else (none, s)) with ⟨e, s'⟩
  have hs' : Inv s' := by
    have := iteGrow_inv (s.c - s.w < 1) 1 h
    rw [hg] at this
    exact this
  have hsp : e = none → 1 ≤ s'.c - s'.w := by
    intro he
    have := iteGrow_space (n := 1) h (by rw [hg, he])
    rw [hg] at this
    exact this
  cases e with
  | some e => simpa [hg] using hs'
  | none =>
    simp only [hg]
    obtain ⟨h1, h2, h3, h4, h5⟩ := hs'
    have := hsp rfl
    exact ⟨by simp; omega, by simp, by simp; omega, by simp; omega, h5⟩

theorem Set_inv {s : buffer} (p : List Nat) (h : Inv s) : Inv (s.Set p).2 := by
  unfold Set
  split
  · exact h
  split
  · obtain ⟨h1, h2, h3, h4, h5⟩ := h
    split
    · exact ⟨h1, h2, h3, h4, h5⟩
    · exact ⟨Nat.le_refl _, Nat.le_refl _, by simp; omega, by simpa, h5⟩
  rcases hg : (if s.c - s.w < p.length then s.grow p.length else (none, s)) with ⟨e, s'⟩
  have hs' : Inv s' := by
    have := iteGrow_inv (s.c - s.w < p.length) p.length h
    rw [hg] at this
    exact this
  cases e with
  | some e => simpa [hg] using hs'
  | none =>
    simp only [hg]
    obtain ⟨h1, h2, h3, h4, h5⟩ := hs'
    exact writeAt_inv ⟨h1, h2, h3, h4, h5⟩ (Nat.le_refl _) (by omega) (by omega) p

theorem Next_inv {s : buffer} (n : Nat) (h : Inv s) : Inv (s.Next n).2 := by
  unfold Next
  obtain ⟨h1, h2, h3, h4, h5⟩ := h
  split
  · exact ⟨h1, h2, h3, h4, h5⟩
  split
  · exact ⟨h1, h2, h3, h4, h5⟩
  exact shrink_inv ⟨by simp [Len]; omega, by simp; omega, by simpa, by simpa, h5⟩

theorem Read_inv {s : buffer} (dLen : Nat) (h : Inv s) : Inv (s.Read dLen).2 := by
  unfold Read
  obtain ⟨h1, h2, h3, h4, h5⟩ := h
  split
  · exact ⟨h1, h2, h3, h4, h5⟩
  split
  · exact ⟨h1, h2, h3, h4, h5⟩
  exact shrink_inv ⟨by simp [Len]; omega, by simp; omega, by simpa, by simpa, h5⟩

theorem ReadByte_inv {s : buffer} (h : Inv s) : Inv s.ReadByte.2 := by
  unfold ReadByte
  obtain ⟨h1, h2, h3, h4, h5⟩ := h
  split
  · exact ⟨h1, h2, h3, h4, h5⟩
  rename_i hne
  simp only [Len] at hne
  exact shrink_inv ⟨by simp; omega, by simp; omega, by simpa, by simpa, h5⟩

theorem Discard_inv {s : buffer} (n : Nat) (h : Inv s) : Inv (s.Discard n) := by
  unfold Discard
  obtain ⟨h1, h2, h3, h4, h5⟩ := h
  split
  · exact ⟨h1, h2, h3, h4, h5⟩
  split
  · exact ⟨h1, h2, h3, h4, h5⟩
  exact shrink_inv ⟨by simp [Len]; omega, by simp; omega, by simpa, by simpa, h5⟩

theorem findIdx?_lt_length {p : Nat → Bool} {l : List Nat} {i : Nat}
    (h : l.findIdx? p = some i) : i < l.length := by
  induction l generalizing i with
  | nil => simp [List.findIdx?] at h
  | cons x xs ih =>
    rw [List.findIdx?_cons, List.findIdx?_succ] at h
    split at h
    · simp only [Option.some_inj] at h
      simp [← h]
    · rw [Option.map_eq_some'] at h
      obtain ⟨j, hj, hji⟩ := h
      have := ih hj
      simp [← hji]
      omega

theorem indexByte_toNat_lt {l : List Nat} {d : Nat} (h : indexByte l d ≠ -1) :
    (indexByte l d).toNat < l.length := by
  unfold indexByte at h ⊢
  rcases hf : l.findIdx? (fun x => x = d) with _ | j
  · rw [hf] at h
    simp at h
  · simpa using findIdx?_lt_length hf

theorem ReadBytes_inv {s : buffer} (delim : Nat) (h : Inv s) :
    Inv (s.ReadBytes delim).2 := by
  unfold ReadBytes
  obtain ⟨h1, h2, h3, h4, h5⟩ := h
  dsimp only
  split
  · exact ⟨h1, h2, h3, h4, h5⟩
  split
  · exact shrink_inv ⟨by simp [Len]; omega, by simp; omega, by simpa, by simpa, h5⟩
  rename_i hne hi
  simp only [Len] at hne
  have hlt := indexByte_toNat_lt (l := slice s.b s.r s.w) (d := delim) hi
  rw [slice_length] at hlt
  exact shrink_inv ⟨by simp [Len]; omega, by simp; omega, by simpa, by simpa, h5⟩

theorem Borrow_inv {s : buffer} (size : Nat) (h : Inv s) : Inv (s.Borrow size).2 := by
  unfold Borrow
  split
  · exact h
  split
  · exact h
  rename_i hb hsz
  rcases hg : (if s.c - s.w < size then s.grow size else (none, s)) with ⟨e, s'⟩
  have hs' : Inv s' := by
    have := iteGrow_inv (s.c - s.w < size) size h
    rw [hg] at this
    exact this
  cases e with
  | some e => simpa [hg] using hs'
  | none =>
    simp only [hg]
    have hsp : size ≤ s'.c - s'.w := by
      have := iteGrow_space (n := size) h (by rw [hg])
      rw [hg] at this
      exact this
    have hnb : s'.Borrowing ≠ true := by
      have := iteGrow_notBorrowing (s.c - s.w < size) size (by simpa using hb)
      rw [hg] at this
      exact this
    obtain ⟨h1, h2, h3, h4, h5⟩ := hs'
    have haw : s'.a = s'.w := by
      simpa [Borrowing] using hnb
    exact ⟨by simpa, by simp; omega, by simp; omega, by simpa, h5⟩

theorem Return_inv_of_le {s : buffer} {used : Nat} (h : Inv s)
    (hle : used ≤ s.a - s.w) : Inv (s.Return used) := by
  unfold Return
  obtain ⟨h1, h2, h3, h4, h5⟩ := h
  split
  · exact ⟨h1, h2, h3, h4, h5⟩
  split
  · exact ⟨by simpa, by simp, by simp; omega, by simpa, h5⟩
  · exact ⟨by simp; omega, by simp, by simp; omega, by simpa, h5⟩

theorem Reset_inv {s : buffer} (h : Inv s) : Inv s.Reset.2 := by
  unfold Reset
  obtain ⟨h1, h2, h3, h4, h5⟩ := h
  split
  · exact ⟨h1, h2, h3, h4, h5⟩
  · exact ⟨Nat.le_refl _, Nat.le_refl _, Nat.zero_le _, h4, h5⟩

theorem readFromLoop_inv {hint : Nat} (chunks : List (List Nat)) :
    ∀ (s : buffer) (n : Nat), Inv s → Inv (s.readFromLoop hint chunks n).2 := by
  induction chunks with
  | nil =>
    intro s n h
    unfold readFromLoop
    rcases hg : (if s.w = s.c then s.grow hint else (none, s)) with ⟨e, s'⟩
    have hs' : Inv s' := by
      have := iteGrow_inv (s.w = s.c) hint h
      rw [hg] at this
      exact this
    cases e <;> simpa [hg]
  | cons ch rest ih =>
    intro s n h
    unfold readFromLoop
    rcases hg : (if s.w = s.c then s.grow hint else (none, s)) with ⟨e, s'⟩
    have hs' : Inv s' := by
      have := iteGrow_inv (s.w = s.c) hint h
      rw [hg] at this
      exact this
    cases e with
    | some e => simpa [hg]
    | none =>
      simp only [hg]
      refine ih _ _ ?_
      obtain ⟨h1, h2, h3, h4, h5⟩ := hs'
      exact writeAt_inv ⟨h1, h2, h3, h4, h5⟩ h1 (Nat.le_refl _) (by omega) _

theorem readFromLimitedLoop_inv (chunks : List (List Nat)) :
    ∀ (s : buffer) (n nn : Nat), Inv s → s.w + n ≤ s.c →
      Inv (s.readFromLimitedLoop chunks n nn).2 := by
  induction chunks with
  | nil =>
    intro s n nn h _
    unfold readFromLimitedLoop
    cases n <;> exact h
  | cons ch rest ih =>
    intro s n nn h hn
    unfold readFromLimitedLoop
    cases n with
    | zero => exact h
    | succ m =>
      refine ih _ _ _ ?_ ?_
      · obtain ⟨h1, h2, h3, h4, h5⟩ := h
        exact writeAt_inv ⟨h1, h2, h3, h4, h5⟩ h1 (Nat.le_refl _) (by omega) _
      · simp
        omega

theorem ReadFromWithHint_inv {s : buffer} (chunks : List (List Nat)) (hint : Int)
    (h : Inv s) : Inv (s.ReadFromWithHint chunks hint).2 := by
  unfold ReadFromWithHint
  split
  · exact h
  · exact readFromLoop_inv chunks s 0 h

theorem ReadFromLimited_inv {s : buffer} (chunks : List (List Nat)) (n : Nat)
    (h : Inv s) : Inv (s.ReadFromLimited chunks n).2 := by
  unfold ReadFromLimited
  split
  · exact h
  split
  · exact h
  rcases hg : s.grow n with ⟨e, s'⟩
  have hs' : Inv s' := by
    have := grow_inv n h
    rw [hg] at this
    exact this
  cases e with
  | some e => simpa [hg]
  | none =>
    simp only [hg]
    refine readFromLimitedLoop_inv chunks s' n 0 hs' ?_
    have := grow_space h (by rw [hg])
    rw [hg] at this
    obtain ⟨h1, h2, h3, h4, h5⟩ := hs'
    simp at this
    omega

theorem writeToLoop_inv (accepts : List Nat) :
    ∀ (s : buffer) (n : Nat), Inv s → Inv (s.writeToLoop accepts n).2 := by
  induction accepts with
  | nil =>
    intro s n h
    unfold writeToLoop
    split <;> exact h
  | cons acc rest ih =>
    intro s n h
    unfold writeToLoop
    split
    · refine ih _ _ ?_
      obtain ⟨h1, h2, h3, h4, h5⟩ := h
      exact ⟨by simp; omega, by simpa using h2.trans (by omega), by simpa, by simpa, h5⟩
    · exact h

theorem writeToLimitedLoop_inv (accepts : List Nat) :
    ∀ (s : buffer) (n nn : Nat), Inv s → Inv (s.writeToLimitedLoop accepts n nn).2 := by
  induction accepts with
  | nil =>
    intro s n nn h
    unfold writeToLimitedLoop
    split <;> exact h
  | cons acc rest ih =>
    intro s n nn h
    unfold writeToLimitedLoop
    split
    · refine ih _ _ _ ?_
      obtain ⟨h1, h2, h3, h4, h5⟩ := h
      exact ⟨by simp; omega, by simpa using h2.trans (by omega), by simpa, by simpa, h5⟩
    · exact h

/-- Every public operation preserves the invariant, provided a `Return`
does not overcommit beyond the outstanding borrow. -/
theorem applyOp_inv {s : buffer} {op : Op} (h : Inv s) (hok : OpOK s op) :
    Inv (applyOp s op) := by
  cases op with
  | write p => exact Write_inv p h
  | writeByte x => exact WriteByte_inv x h
  | set p => exact Set_inv p h
  | next n => exact Next_inv n h
  | read dLen => exact Read_inv dLen h
  | readByte => exact ReadByte_inv h
  | readBytes delim => exact ReadBytes_inv delim h
  | discard n => exact Discard_inv n h
  | borrow size => exact Borrow_inv size h
  | ret used => exact Return_inv_of_le h hok
  | reset => exact Reset_inv h
  | readFromWithHint chunks hint => exact ReadFromWithHint_inv chunks hint h
  | readFromLimited chunks n => exact ReadFromLimited_inv chunks n h
  | writeTo accepts => exact writeToLoop_inv accepts s 0 h
  | writeToLimited accepts n => exact writeToLimitedLoop_inv accepts s _ 0 h

theorem execOps_inv {s : buffer} (h : Inv s) :
    ∀ ops : List Op, TraceOK s ops → Inv (execOps s ops) := by
  intro ops
  induction ops generalizing s with
  | nil => intro _; exact h
  | cons op rest ih =>
    intro ⟨hop, hrest⟩
    exact ih (applyOp_inv h hop) hrest

end buffer

open buffer

/-- A small reachable state used by witnesses: capacity 64, unread region
`[20, 30]` at cursors `r = 1`, `w = a = 3`. -/
def sampleBuf : buffer :=
  { h := 64, c := 64, r := 1, w := 3, a := 3,
    b := 10 :: 20 :: 30 :: List.replicate 61 0 }

/-- C10: a freshly constructed buffer has no backing store — capacity 0,
length 0, all cursors 0, empty store — for every hint value, for both
constructors; and the first growth from the store-less state succeeds and
allocates exactly `adjustBufferSize n h` bytes: a multiple of the growth
hint `h` that is at least the requested `n`. -/
theorem claimC10 (hint : Int) :
    ((NewBufferWithCapacityHint hint).Capacity = 0 ∧
     (NewBufferWithCapacityHint hint).Len = 0 ∧
     (NewBufferWithCapacityHint hint).r = 0 ∧
     (NewBufferWithCapacityHint hint).w = 0 ∧
     (NewBufferWithCapacityHint hint).a = 0 ∧
     (NewBufferWithCapacityHint hint).b = []) ∧
    (NewBuffer.Capacity = 0 ∧ NewBuffer.Len = 0 ∧ NewBuffer.b = []) ∧
    (∀ s : buffer, s.c = 0 → s.a = s.w → ∀ n : Nat, 1 ≤ n →
      (s.grow n).1 = none ∧
      (s.grow n).2.c = adjustBufferSize n s.h ∧
      (s.grow n).2.b.length = adjustBufferSize n s.h ∧
      s.h ∣ (s.grow n).2.c ∧
      (1 ≤ s.h → n ≤ (s.grow n).2.c)) := by
  refine ⟨?_, ?_, ?_⟩
  · simp [NewBufferWithCapacityHint, Capacity, Len]
  · simp [NewBuffer, NewBufferWithCapacityHint, Capacity, Len]
  · intro s hc ha n hn
    have hb : s.Borrowing = false := by
      simp [Borrowing, ha]
    simp only [grow, hb, hc]
    simp only [if_neg (by omega : ¬n < 1)]
    simp [hc, adjustBufferSize_dvd]
    intro hh
    exact adjustBufferSize_ge n s.h hh

/-- C10 witness: at hint −5 the constructor yields the empty state and a
first `grow 1` on it allocates 64 bytes (one multiple of the default
hint). -/
theorem claimC10_witness :
    (((NewBufferWithCapacityHint (-5)).grow 1).1 = none ∧
      ((NewBufferWithCapacityHint (-5)).grow 1).2.c =
        adjustBufferSize 1 (NewBufferWithCapacityHint (-5)).h ∧
      ((NewBufferWithCapacityHint (-5)).grow 1).2.b.length =
        adjustBufferSize 1 (NewBufferWithCapacityHint (-5)).h ∧
      (NewBufferWithCapacityHint (-5)).h ∣ ((NewBufferWithCapacityHint (-5)).grow 1).2.c ∧
      (1 ≤ (NewBufferWithCapacityHint (-5)).h →
        1 ≤ ((NewBufferWithCapacityHint (-5)).grow 1).2.c)) :=
  (claimC10 (-5)).2.2 (NewBufferWithCapacityHint (-5)) (by decide) (by decide) 1
    (by decide)

/-- C5: `Reset` succeeds exactly when no borrow is outstanding; success
zeroes the three cursors (so `Len` is 0) and keeps the backing store,
capacity and hint; failure leaves the whole state untouched. -/
theorem claimC5 (s : buffer) :
    (s.Reset.1 = true ↔ s.Borrowing ≠ true) ∧
    (s.Reset.1 = true →
      s.Reset.2.r = 0 ∧ s.Reset.2.w = 0 ∧ s.Reset.2.a = 0 ∧ s.Reset.2.Len = 0 ∧
      s.Reset.2.c = s.c ∧ s.Reset.2.b = s.b ∧ s.Reset.2.h = s.h) ∧
    (s.Reset.1 = false → s.Reset.2 = s) := by
  unfold Reset
  split
  · rename_i hb
    simp [hb, Len]
  · rename_i hb
    simp [hb, Len]

/-- C5 witness: a buffer holding a borrow of 2 (`a = w + 2`) fails to
reset; the same buffer after `Return 2` resets to length 0. -/
theorem claimC5_witness :
    (({ sampleBuf with a := 5 } : buffer).Reset.1 = false ∧
      ({ sampleBuf with a := 5 } : buffer).Reset.2 = { sampleBuf with a := 5 }) ∧
    (sampleBuf.Reset.1 = true ∧ sampleBuf.Reset.2.Len = 0 ∧
      sampleBuf.Reset.2.c = sampleBuf.c) :=
  ⟨⟨by decide, (claimC5 { sampleBuf with a := 5 }).2.2 (by decide)⟩,
    by decide,
    ((claimC5 sampleBuf).2.1 (by decide)).2.2.2.1,
    ((claimC5 sampleBuf).2.1 (by decide)).2.2.2.2.1⟩

/-- C2: a successful `grow` preserves the unread bytes exactly (at offset
zero from the possibly reset read cursor) and the logical length. -/
theorem claimC2 {s : buffer} (n : Nat) (hInv : Inv s)
    (hok : (s.grow n).1 = none) :
    (s.grow n).2.unread = s.unread ∧ (s.grow n).2.Len = s.Len :=
  ⟨grow_unread n hInv, grow_len n hInv⟩

/-- C2 witness: growing `sampleBuf` by 100 relocates the store (capacity
128) but keeps the unread bytes `[20, 30]` and length 2. -/
theorem claimC2_witness :
    Inv sampleBuf ∧ (sampleBuf.grow 100).1 = none ∧
    ((sampleBuf.grow 100).2.unread = sampleBuf.unread ∧
      (sampleBuf.grow 100).2.Len = sampleBuf.Len) ∧
    sampleBuf.unread = [20, 30] ∧ (sampleBuf.grow 100).2.c = 128 :=
  ⟨by decide, by decide, claimC2 100 (by decide) (by decide), by decide, by decide⟩

/-- C1 counterexample: the claim as stated — the cursor invariant after
*every* operation sequence from a fresh buffer — is false, because
`Return` never checks `used` against the borrowed size: `Borrow 1` then
`Return 65` on a fresh buffer (capacity 64 after the borrow's growth)
drives `w = a = 65 > c = 64`. -/
theorem claimC1_counterexample :
    ¬ (∀ (hint : Int) (ops : List Op),
        Inv (execOps (NewBufferWithCapacityHint hint) ops)) := by
  intro hcl
  have hbad := hcl 64 [Op.borrow 1, Op.ret 65]
  revert hbad
  decide

/-- C1 (amended): the cursor invariant `0 ≤ r ≤ w ≤ a ≤ c` (with
`c = |backing store|`) holds after every sequence of public operations from
a freshly constructed buffer, provided every `Return used` in the sequence
respects the outstanding borrow (`used ≤ a − w`, the caller contract the
source does not enforce). -/
theorem claimC1 (hint : Int) (ops : List Op)
    (hok : TraceOK (NewBufferWithCapacityHint hint) ops) :
    Inv (execOps (NewBufferWithCapacityHint hint) ops) := by
  refine execOps_inv ?_ ops hok
  refine ⟨Nat.le_refl _, Nat.le_refl _, Nat.zero_le _, rfl, ?_⟩
  unfold NewBufferWithCapacityHint
  split
  · decide
  · rename_i hpos
    simp
    omega

/-- C1 witness: a write, a respected borrow/return cycle and a reset keep
the invariant. -/
theorem claimC1_witness :
    TraceOK (NewBufferWithCapacityHint 64)
      [Op.write [1, 2, 3], Op.borrow 5, Op.ret 3, Op.reset] ∧
    Inv (execOps (NewBufferWithCapacityHint 64)
      [Op.write [1, 2, 3], Op.borrow 5, Op.ret 3, Op.reset]) :=
  ⟨by decide, claimC1 64 _ (by decide)⟩

theorem slice_split {b : List Nat} {r w v : Nat} (h1 : r ≤ w) (h2 : w ≤ v) :
    slice b r v = slice b r w ++ slice b w v := by
  unfold slice
  rw [show v - r = (w - r) + (v - w) by omega, List.take_add]
  congr 1
  rw [List.drop_drop]
  congr 2
  omega

/-- C4 counterexample: a `Return` that exceeds the borrowed size is *not*
rejected — on a buffer with a 2-byte borrow outstanding, `Return 10` is
applied, advancing `w` by 10. -/
theorem claimC4_counterexample :
    ¬ (∀ (s : buffer) (used : Nat), s.w < s.a → s.a - s.w < used →
        s.Return used = s) := by
  intro hcl
  have hbad := hcl { sampleBuf with a := 5 } 10 (by decide) (by decide)
  revert hbad
  decide

/-- C4 (amended): `Return used` is a no-op without an outstanding borrow;
with one, it always resets `a = w` and clears the borrowing flag, leaving
`r`, `c` and the contents alone; `used = 0` abandons the region
(`w` unchanged) and `used > 0` advances `w` by exactly `used` —
*including* `used` beyond the borrowed size, which the source applies
unchecked rather than rejecting (only negative `used` panics).  When
`0 < used ≤ a − w`, exactly the first `used` borrowed bytes are appended
to the unread region. -/
theorem claimC4 (s : buffer) (used : Nat) (hInv : Inv s) :
    (s.Borrowing ≠ true → s.Return used = s) ∧
    (s.Borrowing = true →
      (s.Return used).a = (s.Return used).w ∧
      (s.Return used).Borrowing = false ∧
      (s.Return used).r = s.r ∧ (s.Return used).c = s.c ∧
      (s.Return used).b = s.b ∧ (s.Return used).h = s.h ∧
      (used = 0 → (s.Return used).w = s.w) ∧
      (0 < used → (s.Return used).w = s.w + used) ∧
      (0 < used → used ≤ s.a - s.w →
        (s.Return used).unread = s.unread ++ slice s.b s.w (s.w + used))) := by
  obtain ⟨h1, h2, h3, h4, h5⟩ := hInv
  unfold Return
  constructor
  · intro hb
    have ha : s.a = s.w := by
      simpa [Borrowing] using hb
    simp [ha]
  · intro hb
    have ha : s.a ≠ s.w := by
      simpa [Borrowing] using hb
    rw [if_neg ha]
    split
    · rename_i hz
      subst hz
      refine ⟨by simp, by simp [Borrowing], by simp, by simp, by simp, by simp,
        fun _ => by simp, fun hpos => absurd hpos (by simp), fun hpos _ => ?_⟩
      exact absurd hpos (by simp)
    · rename_i hz
      refine ⟨by simp, by simp [Borrowing], by simp, by simp, by simp, by simp,
        fun h0 => absurd h0 hz, fun _ => by simp, fun hpos hle => ?_⟩
      show slice s.b s.r (s.w + used) = s.unread ++ slice s.b s.w (s.w + used)
      exact slice_split h1 (by omega)

/-- C4 witness: on `sampleBuf` with a 2-byte borrow (`a = 5`), `Return 2`
commits bytes 3–4 of the store into the unread region and clears the
borrow. -/
theorem claimC4_witness :
    Inv { sampleBuf with a := 5 } ∧
    ({ sampleBuf with a := 5 } : buffer).Borrowing = true ∧
    (({ sampleBuf with a := 5 } : buffer).Return 2).a =
      (({ sampleBuf with a := 5 } : buffer).Return 2).w ∧
    (({ sampleBuf with a := 5 } : buffer).Return 2).unread =
      ({ sampleBuf with a := 5 } : buffer).unread ++
        slice ({ sampleBuf with a := 5 } : buffer).b 3 5 :=
  ⟨by decide, by decide,
    ((claimC4 { sampleBuf with a := 5 } 2 (by decide)).2 (by decide)).1,
    ((claimC4 { sampleBuf with a := 5 } 2 (by decide)).2 (by decide)).2.2.2.2.2.2.2.2
      (by decide) (by decide)⟩

theorem iteGrow_unread {s : buffer} (P : Prop) [Decidable P] (n : Nat) (h : Inv s) :
    (if P then s.grow n else (none, s)).2.unread = s.unread := by
  split
  · exact grow_unread n h
  · rfl

theorem iteGrow_len {s : buffer} (P : Prop) [Decidable P] (n : Nat) (h : Inv s) :
    (if P then s.grow n else (none, s)).2.Len = s.Len := by
  split
  · exact grow_len n h
  · rfl

/-- `grow` can only fail with `tooLarge`, or with `writeBeforeAllocated`
when a borrow was outstanding on entry. -/
theorem grow_err {s : buffer} {n : Nat} {e : GoErr}
    (h : (s.grow n).1 = some e) :
    e = .tooLarge ∨ (e = .writeBeforeAllocated ∧ s.Borrowing = true) := by
  rcases hg : s.grow n with ⟨e', t⟩
  rw [hg] at h
  simp only at h
  subst h
  unfold grow shrink at hg
  dsimp only at hg
  repeat' split at hg
  all_goals cases hg
  all_goals simp_all

/-- A full 64-byte buffer (`w = c`) used by the overflow counterexamples. -/
def bigBuf : buffer :=
  { h := 64, c := 64, r := 0, w := 64, a := 64, b := List.replicate 64 0 }

/-- C3 counterexample: the claim as stated is false twice over.  (i) On
`sampleBuf` (capacity 64, `r = 1`, `w = a = 3`), `Borrow 62` succeeds but
compacts the buffer first, so `w` moves (3 → 2) and `a` becomes
`w + 62 = 64`, not `a + 62 = 65`.  (ii) `Borrow` does not always succeed
for `size ≥ 1` without a borrow outstanding: on a full 64-byte buffer a
request of `maxInt − 64` bytes fails with the too-large error. -/
theorem claimC3_counterexample :
    (¬ (∀ (s : buffer) (size : Nat), Inv s → s.Borrowing ≠ true → 1 ≤ size →
        (s.Borrow size).1.2 = none ∧ (s.Borrow size).2.w = s.w ∧
        (s.Borrow size).2.a = s.a + size)) ∧
    (bigBuf.Borrow (maxInt - 64)).1.2 = some GoErr.tooLarge := by
  constructor
  · intro hcl
    have hbad := hcl sampleBuf 62 (by decide) (by decide) (by decide)
    revert hbad
    decide
  · decide

/-- C3 (amended): with a borrow outstanding `Borrow` fails with the
borrowing-conflict error and changes nothing; without one, `size = 0`
fails with the zero-size-borrow error and changes nothing; for `size ≥ 1`
the only possible failure is the too-large error from growth, and on
success the returned view is exactly `size` bytes at the (possibly
relocated by compaction) write cursor, `a` becomes `w + size`, and the
logical length and the unread bytes are unchanged. -/
theorem claimC3 (s : buffer) (size : Nat) (hInv : Inv s) :
    (s.Borrowing = true →
      (s.Borrow size).1.2 = some .writeBeforeAllocated ∧ (s.Borrow size).2 = s) ∧
    (s.Borrowing ≠ true → size = 0 →
      (s.Borrow size).1.2 = some .allocateZero ∧ (s.Borrow size).2 = s) ∧
    (s.Borrowing ≠ true → 1 ≤ size →
      (∀ e, (s.Borrow size).1.2 = some e → e = .tooLarge) ∧
      ((s.Borrow size).1.2 = none →
        (s.Borrow size).1.1.length = size ∧
        (s.Borrow size).1.1 =
          slice (s.Borrow size).2.b (s.Borrow size).2.w
            ((s.Borrow size).2.w + size) ∧
        (s.Borrow size).2.a = (s.Borrow size).2.w + size ∧
        (s.Borrow size).2.Len = s.Len ∧
        (s.Borrow size).2.unread = s.unread ∧
        (s.Borrow size).2.w + size ≤ (s.Borrow size).2.c)) := by
  by_cases hb : s.Borrowing = true
  · refine ⟨fun _ => ?_, fun hnb => absurd hb hnb, fun hnb => absurd hb hnb⟩
    rw [Borrow, if_pos hb]
    exact ⟨rfl, rfl⟩
  · refine ⟨fun hbt => absurd hbt hb, fun _ hz => ?_, fun _ hsz => ?_⟩
    · rw [Borrow, if_neg hb, if_pos (by omega : size < 1)]
      exact ⟨rfl, rfl⟩
    · rw [Borrow, if_neg hb, if_neg (by omega : ¬size < 1)]
      rcases hg : (if s.c - s.w < size then s.grow size else (none, s)) with ⟨e, s'⟩
      have hs' : Inv s' := by
        have := iteGrow_inv (s.c - s.w < size) size hInv
        rw [hg] at this
        exact this
      have hnb' : s'.Borrowing ≠ true := by
        have := iteGrow_notBorrowing (s.c - s.w < size) size hb
        rw [hg] at this
        exact this
      have hun : s'.unread = s.unread := by
        have := iteGrow_unread (s.c - s.w < size) size hInv
        rw [hg] at this
        exact this
      have hlen : s'.Len = s.Len := by
        have := iteGrow_len (s.c - s.w < size) size hInv
        rw [hg] at this
        exact this
      cases e with
      | some e =>
        constructor
        · intro e' he'
          simp only at he'
          have : e = e' := by
            simpa using he'
          subst this
          by_cases hgg : s.c - s.w < size
          · rw [if_pos hgg] at hg
            have := grow_err (n := size) (e := e) (by rw [hg])
            rcases this with h1 | ⟨_, h2⟩
            · exact h1
            · exact absurd h2 hb
          · rw [if_neg hgg] at hg
            simp at hg
        · intro hnone
          simp at hnone
      | none =>
        have hsp : size ≤ s'.c - s'.w := by
          have := iteGrow_space (n := size) hInv (by rw [hg])
          rw [hg] at this
          exact this
        have haw : s'.a = s'.w := by
          simpa [Borrowing] using hnb'
        obtain ⟨g1, g2, g3, g4, g5⟩ := hs'
        refine ⟨fun e' he' => by simp at he', fun _ => ?_⟩
        refine ⟨?_, rfl, by simpa using haw, by simpa [Len] using hlen,
          by simpa [unread] using hun, by simp; omega⟩
        rw [slice_length]
        simp
        omega

/-- C3 witness: on `sampleBuf`, `Borrow 5` (no growth needed) yields a
5-byte view and sets `a = w + 5` without touching the unread bytes. -/
theorem claimC3_witness :
    (sampleBuf.Borrow 5).1.1.length = 5 ∧
    (sampleBuf.Borrow 5).2.a = (sampleBuf.Borrow 5).2.w + 5 ∧
    (sampleBuf.Borrow 5).2.unread = sampleBuf.unread :=
  have hc := ((claimC3 sampleBuf 5 (by decide)).2.2 (by decide) (by decide)).2
    (by decide)
  ⟨hc.1, hc.2.2.1, hc.2.2.2.2.1⟩

/-- A 2^62-byte buffer that is completely full (`r = 0`, `w = a = c`). -/
def hugeFullBuf : buffer :=
  { h := 64, c := 2 ^ 62, r := 0, w := 2 ^ 62, a := 2 ^ 62,
    b := List.replicate (2 ^ 62) 0 }

/-- A 2^62-byte buffer that is completely consumed (`r = w = a = c`). -/
def hugeEmptyBuf : buffer :=
  { h := 64, c := 2 ^ 62, r := 2 ^ 62, w := 2 ^ 62, a := 2 ^ 62,
    b := List.replicate (2 ^ 62) 0 }

/-- C8 counterexample.  (i) The stated condition — fail iff old capacity
plus the hint-rounded deficit exceeds `maxInt` — is not the code's test:
on a full 2^62-byte buffer, `grow 64` fails too-large although the new
store would only be `2^62 + 64 ≤ maxInt` bytes (the code tests
`c > maxInt − c − deficit`, i.e. `2·c + deficit > maxInt`).  (ii) "No
partial mutation" also fails: on a fully consumed 2^62-byte buffer a
too-large `grow` still collapses the cursors to 0 (the internal shrink
runs before the check). -/
theorem claimC8_counterexample :
    (¬ (∀ (s : buffer) (n : Nat), Inv s →
        ((s.grow n).1 = some GoErr.tooLarge ↔
          maxInt < s.c + adjustBufferSize (n - (s.c - s.Len)) s.h))) ∧
    ((hugeEmptyBuf.grow (2 ^ 62 + 64)).1 = some GoErr.tooLarge ∧
      (hugeEmptyBuf.grow (2 ^ 62 + 64)).2.r = 0 ∧ hugeEmptyBuf.r = 2 ^ 62) := by
  refine ⟨?_, by decide, by decide, by decide⟩
  intro hcl
  have hInv : Inv hugeFullBuf :=
    ⟨by decide, by decide, by decide, (List.length_replicate _ _).symm, by decide⟩
  have herr : (hugeFullBuf.grow 64).1 = some GoErr.tooLarge := by decide
  have hbad := (hcl hugeFullBuf 64 hInv).mp herr
  revert hbad
  decide

/-- C8 (amended): `grow n` fails with the too-large error exactly when
`n ≥ 1`, no borrow is outstanding, a backing store exists, the free
capacity `c − Len` is short of `n`, and the code's conservative overflow
test `2·c + (n − (c − Len)) > maxInt` holds — not the spec's
`c + roundUp(deficit) > maxInt`.  On that failure the buffer keeps its
capacity, contents, unread bytes and length; the only cursor mutation is
the empty-buffer collapse `r = w = a → 0` performed by the internal
shrink before the check (the state is exactly `s.shrink`). -/
theorem claimC8 (s : buffer) (n : Nat) (hInv : Inv s) :
    ((s.grow n).1 = some GoErr.tooLarge ↔
      (1 ≤ n ∧ s.Borrowing ≠ true ∧ 0 < s.c ∧ s.c - s.Len < n ∧
        maxInt < 2 * s.c + (n - (s.c - s.Len)))) ∧
    ((s.grow n).1 = some GoErr.tooLarge →
      (s.grow n).2 = s.shrink ∧ (s.grow n).2.c = s.c ∧
      (s.grow n).2.b = s.b ∧ (s.grow n).2.unread = s.unread ∧
      (s.grow n).2.Len = s.Len) := by
  obtain ⟨h1, h2, h3, h4, h5⟩ := hInv
  have fwd : (s.grow n).1 = some GoErr.tooLarge →
      ((s.grow n).2 = s.shrink ∧ 1 ≤ n ∧ s.Borrowing ≠ true ∧ 0 < s.c ∧
        s.c - s.Len < n ∧ maxInt < 2 * s.c + (n - (s.c - s.Len))) := by
    rcases hg : s.grow n with ⟨e, t⟩
    simp only
    intro he
    subst he
    unfold grow at hg
    dsimp only at hg
    repeat' split at hg
    all_goals cases hg
    rename_i hx1 hx2 hx3 hx4 hx5
    simp only [Capacity] at hx4 hx5
    rw [shrink_c, shrink_len] at hx4 hx5
    refine ⟨rfl, by omega, by simpa using hx2, by omega, by omega, ?_⟩
    unfold maxInt at hx5 ⊢
    omega
  have bwd : 1 ≤ n → s.Borrowing ≠ true → 0 < s.c → s.c - s.Len < n →
      maxInt < 2 * s.c + (n - (s.c - s.Len)) →
      (s.grow n).1 = some GoErr.tooLarge := by
    intro hn hb hc hrem htoo
    unfold grow
    rw [if_neg (by omega : ¬n < 1), if_neg (by simpa using hb),
      if_neg (by omega : ¬s.c = 0)]
    dsimp only
    by_cases hsh : s.r = s.w ∧ s.a = s.w
    · simp only [shrink, if_pos hsh, Len, Capacity]
      simp only [Len] at hrem htoo
      rw [if_neg (by simp; omega), if_pos (by simp [hsh.1] at hrem ⊢; unfold maxInt at htoo ⊢; omega)]
    · simp only [shrink, if_neg hsh, Len, Capacity]
      simp only [Len] at hrem htoo
      rw [if_neg (by omega), if_pos (by unfold maxInt at htoo ⊢; omega)]
  refine ⟨⟨fun he => (fwd he).2, fun hcond => bwd hcond.1 hcond.2.1 hcond.2.2.1
    hcond.2.2.2.1 hcond.2.2.2.2⟩, fun he => ?_⟩
  have hst := (fwd he).1
  rw [hst]
  exact ⟨rfl, shrink_c s, shrink_b s, shrink_unread s, shrink_len s⟩

/-- C8 witness: a full 64-byte buffer asked to grow by `maxInt` bytes
fails too-large and is left exactly as it was. -/
theorem claimC8_witness :
    Inv bigBuf ∧ (bigBuf.grow maxInt).1 = some GoErr.tooLarge ∧
    (bigBuf.grow maxInt).2 = bigBuf.shrink ∧
    (bigBuf.grow maxInt).2.c = bigBuf.c ∧ (bigBuf.grow maxInt).2.b = bigBuf.b :=
  ⟨by decide, by decide,
    ((claimC8 bigBuf maxInt (by decide)).2 (by decide)).1,
    ((claimC8 bigBuf maxInt (by decide)).2 (by decide)).2.1,
    ((claimC8 bigBuf maxInt (by decide)).2 (by decide)).2.2.1⟩

theorem findIdx?_getD {p : Nat → Bool} {l : List Nat} {i : Nat}
    (h : l.findIdx? p = some i) : p (l.getD i 0) = true := by
  induction l generalizing i with
  | nil => simp [List.findIdx?] at h
  | cons x xs ih =>
    rw [List.findIdx?_cons, List.findIdx?_succ] at h
    split at h
    · simp only [Option.some_inj] at h
      subst h
      simp_all
    · rw [Option.map_eq_some'] at h
      obtain ⟨j, hj, hji⟩ := h
      subst hji
      simpa using ih hj

theorem findIdx?_before {p : Nat → Bool} {l : List Nat} {i : Nat}
    (h : l.findIdx? p = some i) : ∀ j, j < i → p (l.getD j 0) = false := by
  induction l generalizing i with
  | nil => simp [List.findIdx?] at h
  | cons x xs ih =>
    rw [List.findIdx?_cons, List.findIdx?_succ] at h
    intro j hj
    split at h
    · simp only [Option.some_inj] at h
      omega
    · rw [Option.map_eq_some'] at h
      obtain ⟨k, hk, hki⟩ := h
      subst hki
      cases j with
      | zero =>
        rename_i hpx
        simpa using hpx
      | succ j' =>
        simp only [List.getD_cons_succ]
        exact ih hk j' (by omega)

theorem findIdx?_none_all {p : Nat → Bool} {l : List Nat}
    (h : l.findIdx? p = none) : ∀ x ∈ l, p x = false := by
  intro x hx
  have := List.findIdx?_eq_none_iff.mp h
  simpa using this x hx

theorem findIdx?_ne_none_of_mem {p : Nat → Bool} {l : List Nat} {x : Nat}
    (hx : x ∈ l) (hp : p x = true) : l.findIdx? p ≠ none := by
  intro hnone
  have := findIdx?_none_all hnone x hx
  rw [hp] at this
  cases this

theorem getLast?_take_succ {l : List Nat} {i : Nat} (h : i < l.length) :
    (l.take (i + 1)).getLast? = l[i]? := by
  rw [List.getLast?_eq_getElem?]
  simp [List.length_take]
  rw [show (i + 1) ⊓ l.length - 1 = i by omega]
  rw [List.getElem?_take_of_lt (by omega)]

theorem dropLast_take_succ {l : List Nat} {i : Nat} (h : i < l.length) :
    (l.take (i + 1)).dropLast = l.take i := by
  rw [List.dropLast_eq_take, List.take_take]
  congr 1
  simp [List.length_take]
  omega

theorem getD_getElem? {l : List Nat} {j : Nat} (h : j < l.length) :
    l[j]? = some (l.getD j 0) := by
  rw [List.getElem?_eq_getElem h]
  simp [List.getD_eq_getElem?_getD, List.getElem?_eq_getElem h]

/-- Advancing the read cursor by `k` drops the first `k` unread bytes. -/
theorem unread_advance (s : buffer) (k : Nat) :
    ({ s with r := s.r + k } : buffer).unread = s.unread.drop k := by
  show (s.b.drop (s.r + k)).take (s.w - (s.r + k)) =
    ((s.b.drop s.r).take (s.w - s.r)).drop k
  rw [List.drop_take, List.drop_drop,
    show s.w - (s.r + k) = s.w - s.r - k by omega,
    show s.r + k = k + s.r by omega]

/-- C6: `ReadBytes delim` on an empty buffer fails with the end-of-data
signal and changes nothing; on a non-empty buffer containing `delim` it
returns, without error, the unread bytes up to and including the *first*
occurrence of `delim` and leaves exactly the bytes after it unread; on a
non-empty buffer not containing `delim` it returns all unread bytes with
no error and leaves the buffer empty (`r = w`). -/
theorem claimC6 (s : buffer) (delim : Nat) (hInv : Inv s) :
    (s.Len = 0 →
      (s.ReadBytes delim).1 = ([], some GoErr.eof) ∧ (s.ReadBytes delim).2 = s) ∧
    (0 < s.Len → delim ∈ s.unread →
      (s.ReadBytes delim).1.2 = none ∧
      (s.ReadBytes delim).1.1 ++ (s.ReadBytes delim).2.unread = s.unread ∧
      (s.ReadBytes delim).1.1.getLast? = some delim ∧
      delim ∉ (s.ReadBytes delim).1.1.dropLast) ∧
    (0 < s.Len → delim ∉ s.unread →
      (s.ReadBytes delim).1.2 = none ∧
      (s.ReadBytes delim).1.1 = s.unread ∧
      (s.ReadBytes delim).2.unread = [] ∧
      (s.ReadBytes delim).2.Len = 0 ∧
      (s.ReadBytes delim).2.r = (s.ReadBytes delim).2.w) := by
  obtain ⟨h1, h2, h3, h4, h5⟩ := hInv
  have hul : s.unread.length = s.Len := unread_length ⟨h1, h2, h3, h4, h5⟩
  by_cases hlen : s.Len = 0
  · rw [ReadBytes, if_pos hlen]
    exact ⟨fun _ => ⟨rfl, rfl⟩, fun hl _ => by omega, fun hl _ => by omega⟩
  · rw [ReadBytes, if_neg hlen]
    dsimp only
    refine ⟨fun h0 => absurd h0 hlen, ?_, ?_⟩
    · -- the delimiter occurs in the unread region
      intro _ hmem
      have hne : indexByte (slice s.b s.r s.w) delim ≠ -1 := by
        unfold indexByte
        rcases hf : (slice s.b s.r s.w).findIdx? (fun x => x = delim) with _ | j
        · exact absurd hf (findIdx?_ne_none_of_mem hmem (by simp))
        · simp
      rw [if_neg hne]
      rcases hf : (slice s.b s.r s.w).findIdx? (fun x => x = delim) with _ | j
      · exact absurd hf (findIdx?_ne_none_of_mem hmem (by simp))
      have hfu : (s.unread).findIdx? (fun x => decide (x = delim)) = some j := hf
      have hidx : indexByte (slice s.b s.r s.w) delim = Int.ofNat j := by
        unfold indexByte
        rw [hf]
      have hjl : j < s.unread.length := findIdx?_lt_length hfu
      have hjD : s.unread.getD j 0 = delim := by
        have := findIdx?_getD hfu
        simpa using this
      have htn : (indexByte (slice s.b s.r s.w) delim).toNat = j := by
        rw [hidx]
        rfl
      refine ⟨rfl, ?_, ?_, ?_⟩
      · show (s.unread).take _ ++ _ = s.unread
        rw [htn, shrink_unread, unread_advance]
        exact List.take_append_drop _ _
      · show ((s.unread).take _).getLast? = some delim
        rw [htn, getLast?_take_succ hjl, getD_getElem? hjl, hjD]
      · show delim ∉ ((s.unread).take _).dropLast
        rw [htn, dropLast_take_succ hjl]
        intro hmem'
        obtain ⟨k, hk⟩ := List.mem_iff_getElem?.mp hmem'
        obtain ⟨hkb, hkv⟩ := List.getElem?_eq_some.mp hk
        rw [List.length_take] at hkb
        have hkj : k < j := by omega
        have hku : (s.unread)[k]? = some delim := by
          rw [← List.getElem?_take_of_lt hkj, hk]
        have hkD : s.unread.getD k 0 = delim := by
          have := getD_getElem? (l := s.unread) (j := k) (by omega)
          rw [this] at hku
          simpa using hku
        have := findIdx?_before hfu k hkj
        rw [hkD] at this
        simp at this
    · intro _ hnmem
      have hneg : indexByte (slice s.b s.r s.w) delim = -1 := by
        unfold indexByte
        rcases hf : (slice s.b s.r s.w).findIdx? (fun x => x = delim) with _ | j
        · rfl
        · have hfu : (s.unread).findIdx? (fun x => decide (x = delim)) = some j := hf
          have hjl : j < s.unread.length := findIdx?_lt_length hfu
          have hjD : s.unread.getD j 0 = delim := by
            have := findIdx?_getD hfu
            simpa using this
          exfalso
          refine hnmem ?_
          rw [← hjD]
          exact List.mem_iff_getElem?.mpr ⟨j, getD_getElem? hjl⟩
      rw [if_pos hneg]
      refine ⟨rfl, rfl, ?_, ?_, ?_⟩
      · show ({ s with r := s.r + s.Len } : buffer).shrink.unread = []
        rw [shrink_unread, unread_advance]
        exact List.drop_eq_nil_of_le (by omega)
      · show ({ s with r := s.r + s.Len } : buffer).shrink.Len = 0
        rw [shrink_len]
        simp [Len]
        omega
      · show ({ s with r := s.r + s.Len } : buffer).shrink.r =
          ({ s with r := s.r + s.Len } : buffer).shrink.w
        have htr : ({ s with r := s.r + s.Len } : buffer).r =
            ({ s with r := s.r + s.Len } : buffer).w := by
          simp [Len]
          omega
        unfold shrink
        split <;> simpa using htr

/-- A buffer holding the five bytes of `"ab,cd"` (`,` = 44). -/
def csvBuf : buffer :=
  { h := 64, c := 64, r := 0, w := 5, a := 5,
    b := 97 :: 98 :: 44 :: 99 :: 100 :: List.replicate 59 0 }

/-- C6 witness: scenario D — `ReadBytes ','` on `"ab,cd"` returns `"ab,"`
with no error and leaves `"cd"` unread. -/
theorem claimC6_witness :
    Inv csvBuf ∧ 0 < csvBuf.Len ∧ 44 ∈ csvBuf.unread ∧
    ((csvBuf.ReadBytes 44).1.2 = none ∧
      (csvBuf.ReadBytes 44).1.1 ++ (csvBuf.ReadBytes 44).2.unread = csvBuf.unread ∧
      (csvBuf.ReadBytes 44).1.1.getLast? = some 44 ∧
      44 ∉ (csvBuf.ReadBytes 44).1.1.dropLast) ∧
    (csvBuf.ReadBytes 44).1.1 = [97, 98, 44] ∧
    (csvBuf.ReadBytes 44).2.unread = [99, 100] :=
  ⟨by decide, by decide, by decide,
    (claimC6 csvBuf 44 (by decide)).2.1 (by decide) (by decide),
    by decide, by decide⟩

/-- The least power of two at least `m` (for `m ≥ 1`) is `2 ^ Nat.size (m − 1)`;
these support C9. -/
theorem le_two_pow_size_pred {m : Nat} (hm : 1 ≤ m) : m ≤ 2 ^ Nat.size (m - 1) := by
  have := Nat.lt_size_self (m - 1)
  omega

theorem two_pow_size_pred_le {m k : Nat} (hm : 1 ≤ m) (h : m ≤ 2 ^ k) :
    2 ^ Nat.size (m - 1) ≤ 2 ^ k := by
  have : Nat.size (m - 1) ≤ k := Nat.size_le.mpr (by omega)
  exact Nat.pow_le_pow_right (by omega) this

/-- C9 counterexample: the chunk size is *not* the least `h·2^k` at least
the caller's hint.  With the default hint `h = 64` and caller hint 30, the
code keeps 30 as the chunk size, which is smaller than every `64·2^k`. -/
theorem claimC9_counterexample :
    ¬ (∀ (h : Nat) (hint : Int), 1 ≤ h →
        ∃ k : Nat, hintChunkSize h hint = h * 2 ^ k ∧
          hint ≤ (h * 2 ^ k : Nat) ∧
          ∀ m : Nat, (∃ j, m = h * 2 ^ j) → hint ≤ (m : Int) → h * 2 ^ k ≤ m) := by
  intro hcl
  obtain ⟨k, hk, _, _⟩ := hcl 64 30 (by decide)
  rw [show hintChunkSize 64 30 = 30 from rfl] at hk
  have h64 : (64 : Nat) ≤ 64 * 2 ^ k := Nat.le_mul_of_pos_right 64 (Nat.pos_pow_of_pos k (by omega))
  omega

/-- C9 (amended): `ReadFromWithHint` normalises the caller's hint to a
chunk size as follows — clamp below at 1; a value not exceeding the
configured hint `h` is used *unchanged*; a value exceeding `h` is rounded
up to the next power of two `2^k ≥ hint` (the least such), which is a
multiple of `h` only when `h` is itself a power of two. -/
theorem claimC9 (h : Nat) (hint : Int) (hh : 1 ≤ h) :
    (hint < 1 → hintChunkSize h hint = 1) ∧
    (1 ≤ hint → hint ≤ (h : Int) → hintChunkSize h hint = hint.toNat) ∧
    ((h : Int) < hint →
      hintChunkSize h hint = 2 ^ Nat.size (hint.toNat - 1) ∧
      hint ≤ (hintChunkSize h hint : Int) ∧
      (∀ k : Nat, hint ≤ ((2 ^ k : Nat) : Int) →
        hintChunkSize h hint ≤ 2 ^ k)) := by
  refine ⟨?_, ?_, ?_⟩
  · intro hlt
    unfold hintChunkSize
    rw [if_pos hlt, if_neg (by omega)]
  · intro hge hle
    unfold hintChunkSize
    rw [if_neg (by omega : ¬hint < 1)]
    rw [if_neg (by omega : ¬hint.toNat > h)]
  · intro hgt
    have h1 : ¬ hint < 1 := by omega
    have htn : 1 ≤ hint.toNat := by omega
    have htgt : hint.toNat > h := by omega
    constructor
    · unfold hintChunkSize
      rw [if_pos (by simpa [if_neg h1] using htgt)]
      simp [if_neg h1]
    constructor
    · unfold hintChunkSize
      rw [if_pos (by simpa [if_neg h1] using htgt)]
      simp only [if_neg h1]
      have := le_two_pow_size_pred htn
      omega
    · intro k hk
      unfold hintChunkSize
      rw [if_pos (by simpa [if_neg h1] using htgt)]
      simp only [if_neg h1]
      exact two_pow_size_pred_le htn (by omega)

/-- C9 witness: with `h = 64`, a caller hint of 100 becomes 128 — the next
power of two — and a caller hint of 30 stays 30. -/
theorem claimC9_witness :
    ((64 : Int) < 100 →
      (hintChunkSize 64 100 = 2 ^ Nat.size (Int.toNat 100 - 1) ∧
        (100 : Int) ≤ (hintChunkSize 64 100 : Int) ∧
        ∀ k : Nat, (100 : Int) ≤ ((2 ^ k : Nat) : Int) →
          hintChunkSize 64 100 ≤ 2 ^ k)) ∧
    hintChunkSize 64 100 = 128 ∧ hintChunkSize 64 30 = 30 :=
  ⟨(claimC9 64 100 (by decide)).2.2, by
    unfold hintChunkSize
    rw [if_neg (by omega : ¬(100 : Int) < 1)]
    rw [if_pos (by norm_num : (100 : Int).toNat > 64)]
    rw [show (100 : Int).toNat - 1 = 99 from rfl]
    rw [show Nat.size 99 = 7 from le_antisymm (Nat.size_le.mpr (by norm_num))
      (Nat.lt_size.mpr (by norm_num))]
    norm_num, by decide⟩

/-- pool.go `BufferPool`.  `calls` is the 20-bucket histogram
(`[steps]uint64`), `pool` the sync.Pool free list modelled as a LIFO list
(`Put` = cons).  The atomics are sequentialised: the model covers the
single-threaded executions, in which the CAS latch `calibrating` always
wins when it is 0. -/
structure BufferPool where
  calls : List Nat
  calibrating : Nat
  dynamicHint : Bool
  defaultHint : Nat
  maxSize : Nat
  pool : List buffer
  deriving DecidableEq, Repr

namespace BufferPool

/-- The shift-count loop of pool.go `index`
(`for n > 0 { n >>= 1; idx++ }`), with the iteration count made explicit
so the definition stays structural: halving reaches 0 within `n` steps
(`n < 2^n`), so fuel `n` computes exactly the loop's count. -/
def idxLoopF : Nat → Nat → Nat
  | 0, _ => 0
  | _, 0 => 0
  | fuel + 1, n + 1 => idxLoopF fuel ((n + 1) / 2) + 1

def idxLoop (n : Nat) : Nat := idxLoopF n n

/-- pool.go `index` (it reads no pool state).  In Go, `n--` on `n = 0`
gives −1 and the arithmetic shift keeps it negative, so the loop is
skipped and the index is 0; truncated `Nat` subtraction (`0 − 1 = 0`)
reproduces that. -/
def index (n : Nat) : Nat :=
  let idx := idxLoop ((n - 1) >>> 6)
  if idx ≥ steps then steps - 1 else idx

/-- Insertion step for sorting by *descending* call count.  pool.go sorts
with `sort.Sort` and `Less i j ↔ calls[i] > calls[j]`; `sort.Sort` is
unstable, so equal counts may come out in any order — insertion sort
realises one admissible (the stable) outcome. -/
def insertCall (x : Nat × Nat) : List (Nat × Nat) → List (Nat × Nat)
  | [] => [x]
  | y :: ys => if y.1 < x.1 then x :: y :: ys else y :: insertCall x ys

def sortCalls : List (Nat × Nat) → List (Nat × Nat)
  | [] => []
  | x :: xs => insertCall x (sortCalls xs)

/-- pool.go `calibrate`, sequentialised (the latch succeeds exactly when
`calibrating = 0`).  `uint64(float64(callsSum) * 0.95)` is embedded as
`callsSum * 95 / 100`: float64 is exact on these products for any
realisable sum of 20 uint64-in-int-range counters up to ~9.5·10^13; the
0.95 literal itself rounds to a float a hair above 0.95, which cannot
change the truncated value at these magnitudes. -/
def calibrate (p : BufferPool) : BufferPool :=
  if p.calibrating ≠ 0 then p
  else
    let a := (List.range steps).map fun i => (p.calls.getD i 0, minHint <<< i)
    let callsSum := (a.map Prod.fst).sum
    let a := sortCalls a
    let defaultSize := (a.getD 0 (0, 0)).2
    let maxSum := callsSum * 95 / 100
    let walk := fun (acc : Nat × Nat) (cs : Nat × Nat) =>
      if maxSum < acc.1 then acc
      else (acc.1 + cs.1, if acc.2 < cs.2 then cs.2 else acc.2)
    let res := a.foldl walk (0, defaultSize)
    { p with calls := List.replicate steps 0,
             defaultHint := defaultSize, maxSize := res.2, calibrating := 0 }

/-- pool.go `Release` (`b == nil` has no counterpart: the model has no nil
Buffer). -/
def Release (p : BufferPool) (bf : buffer) : BufferPool :=
  if bf.Reset.1 then
    let bf' := bf.Reset.2
    let bCap := bf'.Capacity
    let p1 :=
      if p.dynamicHint then
        let idx := index bCap
        let p' := { p with calls := p.calls.set idx (p.calls.getD idx 0 + 1) }
        if p'.calls.getD idx 0 > calibrateCallsThreshold then p'.calibrate else p'
      else p
    if p1.maxSize = 0 ∨ bCap ≤ p1.maxSize then { p1 with pool := bf' :: p1.pool }
    else p1
  else p

theorem index_lt_steps (n : Nat) : index n < steps := by
  unfold index
  dsimp only
  split
  · decide
  · omega

theorem getD_set_self {l : List Nat} {i v : Nat} (h : i < l.length) :
    (l.set i v).getD i 0 = v := by
  rw [List.getD_eq_getElem?_getD, List.getElem?_set_self]
  · rfl
  · omega

theorem calibrate_pool (p : BufferPool) : p.calibrate.pool = p.pool := by
  unfold calibrate
  split <;> rfl

theorem calibrate_calls0 {p : BufferPool} (h : p.calibrating = 0) :
    p.calibrate.calls = List.replicate steps 0 := by
  unfold calibrate
  rw [if_neg (by simpa using h)]

theorem calibrate_busy {p : BufferPool} (h : p.calibrating ≠ 0) :
    p.calibrate = p := by
  unfold calibrate
  rw [if_pos h]

/-- The free-list push at the end of `Release`: the buffer lands on the
free list iff `maxSize` is 0 or at least `cap`; nothing else changes. -/
theorem pushStep_spec (p1 : BufferPool) (bf' : buffer) (cap : Nat)
    (P : List buffer) (hpool : p1.pool = P) :
    ((if p1.maxSize = 0 ∨ cap ≤ p1.maxSize then { p1 with pool := bf' :: p1.pool }
        else p1).pool = bf' :: P ↔
      ((if p1.maxSize = 0 ∨ cap ≤ p1.maxSize then { p1 with pool := bf' :: p1.pool }
          else p1).maxSize = 0 ∨
        cap ≤ (if p1.maxSize = 0 ∨ cap ≤ p1.maxSize then
          { p1 with pool := bf' :: p1.pool } else p1).maxSize)) ∧
    (if p1.maxSize = 0 ∨ cap ≤ p1.maxSize then { p1 with pool := bf' :: p1.pool }
      else p1).calls = p1.calls ∧
    (if p1.maxSize = 0 ∨ cap ≤ p1.maxSize then { p1 with pool := bf' :: p1.pool }
      else p1).defaultHint = p1.defaultHint ∧
    (if p1.maxSize = 0 ∨ cap ≤ p1.maxSize then { p1 with pool := bf' :: p1.pool }
      else p1).maxSize = p1.maxSize := by
  split
  · rename_i hc
    refine ⟨?_, rfl, rfl, rfl⟩
    simp [hpool, hc]
  · rename_i hc
    refine ⟨?_, rfl, rfl, rfl⟩
    constructor
    · intro hcon
      rw [hpool] at hcon
      exact absurd hcon.symm (List.cons_ne_self bf' P)
    · intro hcon
      exact absurd hcon hc

end BufferPool

open BufferPool in
/-- Pools used by the C7 analysis: `poolA` is non-dynamic and empty;
`poolB` is dynamic with 42000 calls already recorded in bucket 0. -/
def poolA : BufferPool :=
  { calls := List.replicate 20 0, calibrating := 0, dynamicHint := false,
    defaultHint := 64, maxSize := 0, pool := [] }

def poolB : BufferPool :=
  { calls := 42000 :: List.replicate 19 0, calibrating := 0, dynamicHint := true,
    defaultHint := 64, maxSize := 0, pool := [] }

/-- An idle 128-byte buffer (classified in histogram bucket 1). -/
def buf128 : buffer :=
  { h := 64, c := 128, r := 0, w := 0, a := 0, b := List.replicate 128 0 }

/-- C7 counterexample: "capacity is classified into a bucket whose counter
is incremented, and calibration triggers when the running total of
increments exceeds 42000" is false twice over.  (i) A pool built without
dynamic hinting never touches the histogram: releasing into `poolA` leaves
every counter at 0.  (ii) Calibration is gated on the *single bucket's*
counter, not the running total: `poolB` has 42000 increments recorded in
bucket 0; releasing a 128-byte buffer (bucket 1) makes the total 42001 >
42000, yet no calibration happens — bucket 0 keeps its 42000 instead of
being drained to 0. -/
theorem claimC7_counterexample :
    (¬ (∀ (p : BufferPool) (bf : buffer), bf.Borrowing ≠ true →
        ((p.calls.sum + 1 ≤ calibrateCallsThreshold →
            (p.Release bf).calls.sum = p.calls.sum + 1) ∧
          (calibrateCallsThreshold < p.calls.sum + 1 →
            (p.Release bf).calls.sum = 0)))) ∧
    calibrateCallsThreshold < poolB.calls.sum + 1 ∧
    (poolB.Release buf128).calls = 42000 :: 1 :: List.replicate 18 0 := by
  refine ⟨?_, by decide, by decide⟩
  intro hcl
  have hA := (hcl poolA NewBuffer (by decide)).1 (by decide)
  revert hA
  decide

/-- C7 (amended): `Release` is a silent no-op when `Reset` fails (borrow
outstanding).  When `Reset` succeeds, the buffer is pushed onto the free
list iff the *current* `maxSize` (i.e. after any calibration this call
performed) is 0 (unbounded) or at least the buffer's capacity.  The
histogram is touched only by pools with dynamic hinting: the capacity's
bucket counter is incremented, and calibration triggers exactly when that
*single bucket's* counter exceeds 42000 (draining the whole histogram,
given the single-flight latch is free) — not when the running total across
buckets does. -/
theorem claimC7 (p : BufferPool) (bf : buffer)
    (hlen : p.calls.length = steps) :
    (bf.Borrowing = true → p.Release bf = p) ∧
    (bf.Borrowing ≠ true →
      ((p.Release bf).pool = bf.Reset.2 :: p.pool ↔
        ((p.Release bf).maxSize = 0 ∨ bf.c ≤ (p.Release bf).maxSize)) ∧
      (p.dynamicHint = false →
        (p.Release bf).calls = p.calls ∧
        (p.Release bf).defaultHint = p.defaultHint ∧
        (p.Release bf).maxSize = p.maxSize) ∧
      (p.dynamicHint = true →
        (p.calls.getD (BufferPool.index bf.c) 0 + 1 ≤ calibrateCallsThreshold →
          (p.Release bf).calls =
            p.calls.set (BufferPool.index bf.c)
              (p.calls.getD (BufferPool.index bf.c) 0 + 1) ∧
          (p.Release bf).defaultHint = p.defaultHint ∧
          (p.Release bf).maxSize = p.maxSize) ∧
        (calibrateCallsThreshold < p.calls.getD (BufferPool.index bf.c) 0 + 1 →
          p.calibrating = 0 →
          (p.Release bf).calls = List.replicate steps 0))) := by
  have hidx : BufferPool.index bf.c < p.calls.length := by
    rw [hlen]
    exact BufferPool.index_lt_steps bf.c
  constructor
  · intro hb
    unfold BufferPool.Release
    rw [Reset, if_pos hb]
    rw [if_neg (by simp)]
  · intro hb
    unfold BufferPool.Release
    rw [Reset, if_neg hb]
    dsimp only [Capacity]
    by_cases hdyn : p.dynamicHint = true
    · rw [if_pos hdyn]
      have hbump : ((p.calls.set (BufferPool.index bf.c)
          (p.calls.getD (BufferPool.index bf.c) 0 + 1)).getD
            (BufferPool.index bf.c) 0) =
          p.calls.getD (BufferPool.index bf.c) 0 + 1 :=
        BufferPool.getD_set_self hidx
      by_cases hth : calibrateCallsThreshold <
          p.calls.getD (BufferPool.index bf.c) 0 + 1
      · rw [if_pos (show (p.calls.set (BufferPool.index bf.c) (p.calls.getD (BufferPool.index bf.c) 0 + 1)).getD (BufferPool.index bf.c) 0 > calibrateCallsThreshold by rw [hbump]; exact hth)]
        have hps := BufferPool.pushStep_spec
          (BufferPool.calibrate
            { p with calls := (p.calls.set (BufferPool.index bf.c) (p.calls.getD (BufferPool.index bf.c) 0 + 1)) })
          bf.Reset.2 bf.c p.pool
          (by rw [BufferPool.calibrate_pool])
        rw [Reset, if_neg hb] at hps
        refine ⟨hps.1, fun hdf => absurd hdyn (by simp [hdf]), fun _ => ?_⟩
        refine ⟨fun hle => absurd hth (by omega), fun _ hlatch => ?_⟩
        exact hps.2.1.trans (BufferPool.calibrate_calls0 hlatch)
      · rw [if_neg (show ¬((p.calls.set (BufferPool.index bf.c) (p.calls.getD (BufferPool.index bf.c) 0 + 1)).getD (BufferPool.index bf.c) 0 > calibrateCallsThreshold) by rw [hbump]; omega)]
        have hps := BufferPool.pushStep_spec
          { p with calls := (p.calls.set (BufferPool.index bf.c) (p.calls.getD (BufferPool.index bf.c) 0 + 1)) }
          bf.Reset.2 bf.c p.pool rfl
        rw [Reset, if_neg hb] at hps
        refine ⟨hps.1, fun hdf => absurd hdyn (by simp [hdf]), fun _ => ?_⟩
        refine ⟨fun _ => ⟨hps.2.1, hps.2.2.1, hps.2.2.2⟩,
          fun hgt => absurd hgt (by omega)⟩
    · rw [if_neg hdyn]
      have hps := BufferPool.pushStep_spec p bf.Reset.2 bf.c p.pool rfl
      rw [Reset, if_neg hb] at hps
      refine ⟨hps.1, fun _ => ⟨hps.2.1, hps.2.2.1, hps.2.2.2⟩,
        fun hdt => absurd hdt hdyn⟩

/-- C7 witness: releasing an idle 128-byte buffer into `poolB` (dynamic,
below threshold for bucket 1) pushes it onto the free list (maxSize 0 =
unbounded) and increments bucket 1. -/
theorem claimC7_witness :
    poolB.calls.length = steps ∧ buf128.Borrowing ≠ true ∧
    ((poolB.Release buf128).pool = buf128.Reset.2 :: poolB.pool ↔
      ((poolB.Release buf128).maxSize = 0 ∨
        buf128.c ≤ (poolB.Release buf128).maxSize)) ∧
    (poolB.Release buf128).calls =
      poolB.calls.set (BufferPool.index buf128.c)
        (poolB.calls.getD (BufferPool.index buf128.c) 0 + 1) :=
  have h := (claimC7 poolB buf128 (by decide)).2 (by decide)
  ⟨by decide, by decide, h.1, ((h.2.2 (by decide)).1 (by decide)).1⟩

end Bytebuffers
